import Mathlib

/-
Shallow embedding of the LOD video-rendering scripts of the CityGaussian
repository (`render_video_lodv2.py` and `render_video.py`).

Numeric model: tensor entries are embedded as exact rationals (`ℚ`);
the one operation that leaves `ℚ` is the Euclidean norm
(`torch.norm`), embedded as `Real.sqrt` of the rational sum of squares.
Parallel point/feature tensors are embedded as parallel lists filtered
through a shared boolean mask, exactly as the Python code indexes both
tensors with one mask.
-/

namespace CityGS

/-- Position of one Gaussian primitive: a row of the `xyz` tensor. -/
structure P3 where
  x : ℚ
  y : ℚ
  z : ℚ
deriving DecidableEq

/-- Homogeneous 4-vector, a row of `homo_xyz` or of a 4×4 matrix. -/
structure V4 where
  x : ℚ
  y : ℚ
  z : ℚ
  w : ℚ
deriving DecidableEq

/-- Row-major 4×4 matrix: the `world_view_transform` of a camera. -/
structure Mat4 where
  r0 : V4
  r1 : V4
  r2 : V4
  r3 : V4
deriving DecidableEq

/-- Embeds `torch.cat([xyz, ones], dim=-1)` for one row (line 105). -/
def homo (p : P3) : V4 := ⟨p.x, p.y, p.z, 1⟩

/-- Row-vector times matrix, the row-wise meaning of `homo_xyz @ viewmatrix`
(line 108): entry `j` is `Σ_k v_k · M[k][j]`. -/
def vecMat (v : V4) (m : Mat4) : V4 :=
  ⟨v.x * m.r0.x + v.y * m.r1.x + v.z * m.r2.x + v.w * m.r3.x,
   v.x * m.r0.y + v.y * m.r1.y + v.z * m.r2.y + v.w * m.r3.y,
   v.x * m.r0.z + v.y * m.r1.z + v.z * m.r2.z + v.w * m.r3.z,
   v.x * m.r0.w + v.y * m.r1.w + v.z * m.r2.w + v.w * m.r3.w⟩

/-- Camera state used by `get_feats_ptwise`: `camera_center` and
`world_view_transform` (lines 106-107). -/
structure Camera where
  camera_center : P3
  world_view_transform : Mat4
deriving DecidableEq

/-- Camera-space depth of a point: component 2 of `homo_xyz @ viewmatrix`
(`xyz_cam[..., 2]`, line 109). -/
def camZ (cam : Camera) (p : P3) : ℚ :=
  (vecMat (homo p) cam.world_view_transform).z

/-- Squared Euclidean offset from the camera center, the radicand of
`torch.norm(self.xyz - cam_center[None, :3], dim=-1)` (line 113). -/
def sqDist (c p : P3) : ℚ :=
  (p.x - c.x) ^ 2 + (p.y - c.y) ^ 2 + (p.z - c.z) ^ 2

/-- Euclidean distance from the camera center (`torch.norm`, line 113). -/
noncomputable def dist (c p : P3) : ℝ :=
  Real.sqrt ((sqDist c p : ℚ) : ℝ)

/-- One LOD level as stored by `BlockedGaussian.__init__`: parallel `xyz`
and `feats` arrays plus the assigned distance range `[range[0], range[1])`.
The feature payload is opaque here (type parameter `F`). -/
structure BlockedGaussian (F : Type) where
  xyz : List P3
  feats : List F
  range : ℚ × ℚ

/-- Boolean-mask indexing `tensor[mask]` over parallel lists. -/
def maskFilter {α : Type _} : List Bool → List α → List α
  | b :: ms, a :: as => if b then a :: maskFilter ms as else maskFilter ms as
  | _, _ => []

/-- Near-clip test `xyz_cam[..., 2] > 0.2` (line 109) for one point. -/
def depthPass (cam : Camera) (p : P3) : Bool :=
  decide ((0.2 : ℚ) < camZ cam p)

open Classical in
/-- Distance-band test `(distances >= self.range[0]) & (distances < self.range[1])`
(line 114) for one point. -/
noncomputable def rangePass {F : Type} (g : BlockedGaussian F) (cam : Camera) (p : P3) : Bool :=
  decide ((g.range.1 : ℝ) ≤ dist cam.camera_center p) &&
    decide (dist cam.camera_center p < (g.range.2 : ℝ))

/-- Full per-point keep condition of the fine filter: near-clip pass AND
distance in `[range[0], range[1])` (conjunction of lines 109 and 114). -/
noncomputable def keepPred {F : Type} (g : BlockedGaussian F) (cam : Camera) (p : P3) : Bool :=
  depthPass cam p && rangePass g cam p

/-- Fine per-point filter `BlockedGaussian.get_feats_ptwise` (lines 101-118):
build the near-clip mask; if no point survives, return empty tensors;
otherwise AND in the distance-band mask and, if any point survives, index
both parallel arrays with the combined mask, else return empty tensors. -/
noncomputable def get_feats_ptwise {F : Type} (g : BlockedGaussian F) (cam : Camera) :
    List P3 × List F :=
  let mask1 := g.xyz.map (depthPass cam)
  if mask1.count true = 0 then ([], [])
  else
    let mask := List.zipWith (fun a b => a && b) mask1 (g.xyz.map (rangePass g cam))
    if 0 < mask.count true then (maskFilter mask g.xyz, maskFilter mask g.feats)
    else ([], [])

/-! Robust per-cell bounding box of `BlockedGaussian.cell_divider`
(lines 71-89).  `torch.median` returns, per axis, the lower middle element
of the sorted values; we embed it as indexing the sorted list at
`(len - 1) / 2`, which matches both the odd and the even case. -/

/-- Per-axis `torch.median(..., dim=0)[0]`: the lower median. -/
def medianLower (xs : List ℚ) : ℚ :=
  (List.insertionSort (· ≤ ·) xs).getD ((xs.length - 1) / 2) 0

/-- Per-axis `torch.min(..., dim=0)[0]` over a cell's member coordinates. -/
def listMin : List ℚ → ℚ
  | [] => 0
  | a :: as => as.foldl min a

/-- Per-axis `torch.max(..., dim=0)[0]` over a cell's member coordinates. -/
def listMax : List ℚ → ℚ
  | [] => 0
  | a :: as => as.foldl max a

/-- Median absolute deviation `torch.median(|xyz - median|)` (line 76). -/
def madLower (xs : List ℚ) : ℚ :=
  medianLower (xs.map fun v => |v - medianLower xs|)

/-- Lower edge of the robust box on one axis (lines 77-78):
`xyz_min = max(median - n·MAD, true min)` with `n = 4`. -/
def robustLo (xs : List ℚ) : ℚ :=
  max (medianLower xs - 4 * madLower xs) (listMin xs)

/-- Upper edge of the robust box on one axis (lines 79-80):
`xyz_max = min(median + n·MAD, true max)` with `n = 4`. -/
def robustHi (xs : List ℚ) : ℚ :=
  min (medianLower xs + 4 * madLower xs) (listMax xs)

/-- The robust box of one cell: per-axis `(xyz_min, xyz_max)` of
`cell_divider` applied to the cell's member points. -/
def cellBox (pts : List P3) : P3 × P3 :=
  (⟨robustLo (pts.map P3.x), robustLo (pts.map P3.y), robustLo (pts.map P3.z)⟩,
   ⟨robustHi (pts.map P3.x), robustHi (pts.map P3.y), robustHi (pts.map P3.z)⟩)

/-- The 8 corner points built from the box (lines 81-88). -/
def cellCorners (pts : List P3) : List P3 :=
  let lo := (cellBox pts).1
  let hi := (cellBox pts).2
  [⟨lo.x, lo.y, lo.z⟩, ⟨lo.x, lo.y, hi.z⟩, ⟨lo.x, hi.y, lo.z⟩, ⟨lo.x, hi.y, hi.z⟩,
   ⟨hi.x, lo.y, lo.z⟩, ⟨hi.x, lo.y, hi.z⟩, ⟨hi.x, hi.y, lo.z⟩, ⟨hi.x, hi.y, hi.z⟩]

/-! Threshold synthesis of `render_sets` in `render_video_lodv2.py`:
`dataset.dist_threshold = [0] + dataset.dist_threshold + [1e6]` (line 175)
and per-level ranges `[t[i], t[i+1]]` (line 185). -/

/-- The synthesized threshold list `[0] + ts + [1e6]`. -/
def synthThresholds (ts : List ℚ) : List ℚ :=
  0 :: (ts ++ [1000000])

/-- Adjacent pairs of a list: `pairs l = [(l0,l1), (l1,l2), …]`. -/
def chainPairs (l : List ℚ) : List (ℚ × ℚ) :=
  l.zip l.tail

/-- The per-level ranges `range = [t[i], t[i+1]]` produced by the loop of
`render_sets` (lines 179-186), one per LOD config. -/
def levelRanges (ts : List ℚ) : List (ℚ × ℚ) :=
  chainPairs (synthThresholds ts)

/-- Decidable test that some range of the list contains distance `d`
under the half-open convention `near ≤ d < far`. -/
def coveredBy (rs : List (ℚ × ℚ)) (d : ℚ) : Bool :=
  rs.any fun r => decide (r.1 ≤ d) && decide (d < r.2)

/-! Control flow of `render_sets` in `render_video_lodv2.py`
(lines 173-204), with the external effects (checkpoint loading and
per-split rendering) recorded as an event trace. -/

/-- Observable step of the multi-level driver: loading the gaussians of one
LOD config, or entering `render_set` for one split. -/
inductive DriverEvent
  | load (i : ℕ)
  | renderSplit (name : String)
deriving DecidableEq

/-- Driver `render_sets` of `render_video_lodv2.py` (lines 173-204).
Line 174 `assert len(dataset.lod_configs)-1 == len(dataset.dist_threshold)`
runs first, before any config is loaded.  In the branch without a custom
test path the local `views` was assigned only inside the `if custom_test:`
branch (line 196), so the first `render_set(...)` call that is not skipped
(line 201 or 204) reads an unbound local and raises; no split is rendered. -/
def render_sets_lodv2 (numConfigs numThresholds : ℕ)
    (customTest skipTrain skipTest : Bool) :
    List DriverEvent × Except String Unit :=
  if (numConfigs : ℤ) - 1 ≠ (numThresholds : ℤ) then
    ([], Except.error "AssertionError")
  else
    let loads := (List.range numConfigs).map DriverEvent.load
    if customTest then
      (loads ++ [DriverEvent.renderSplit "custom"], Except.ok ())
    else if skipTrain && skipTest then
      (loads, Except.ok ())
    else
      (loads, Except.error "UnboundLocalError: views")

/-! Camera sweep and per-sweep reporting of `render_set`
(lines 138-171 of `render_video_lodv2.py`, identically lines 35-68 of
`render_video.py`). -/

/-- Length of Python's `range(start, stop, step)` for a positive step:
`⌈(stop - start) / step⌉`, clamped at 0. -/
def pyRangeLen (start stop step : ℤ) : ℕ :=
  if 0 < step then ((stop - start + step - 1) / step).toNat else 0

/-- Python's `range(start, stop, step)` for a positive step, as the list
`[start, start + step, …)` of values below `stop`. -/
def pyRange (start stop step : ℤ) : List ℤ :=
  (List.range (pyRangeLen start stop step)).map fun (k : ℕ) => start + step * (k : ℤ)

/-- The sweep heights `range(500, 2525, 25)` of the render loop (line 150). -/
def sweepHeights : List ℤ :=
  pyRange 500 2525 25

/-- One camera pose of the sweep, as built by
`loadCamV2(lp, idx, views[idx], 1.0, pitch, float(height)/100)` (line 152):
the fixed base index, the fixed pitch, and the swept height in world units. -/
structure SweepPose where
  idx : ℕ
  pitch : ℚ
  height : ℚ
deriving DecidableEq

/-- The pose sequence of one sweep: `idx = 481` (line 145) and
`float(height)/100` for each height of `range(500, 2525, 25)`. -/
def sweepPoses (pitch : ℚ) : List SweepPose :=
  sweepHeights.map fun (h : ℤ) => ⟨481, pitch, (h : ℚ) / 100⟩

/-- Observable output of one `render_set` call: the frame list and the
duration list handed to `imageio.mimsave`, the two printed FPS figures,
and the value printed by `print(f"Height: {height}")` after the loop
(the loop variable, not the argument). -/
structure RenderOutput (Img : Type) where
  frames : List Img
  duration_list : List ℚ
  avgFPS : ℚ
  minFPS : ℚ
  printedHeight : ℚ
deriving DecidableEq

/-- Driver `render_set` (lines 138-171): sweep the poses, render and time
each frame, then report `Average FPS = len(views)/avg_render_time` (line 170)
and `Min FPS = 1/max_render_time` (line 171), where `avg_render_time` is the
running sum of durations and `max_render_time` the running maximum started
at 0 (lines 139-140, 163-164).  The renderer and the wall clock are external
collaborators, abstracted as `loadCam`, `renderFn`, `timeFn`; the base view
is `views[481]` (`vdef` stands in when the list is shorter).  The `height`
argument is shadowed by the loop variable (line 150) before any use, so it
never influences the output; after the loop the loop variable holds the last
swept value, which is what line 169 prints. -/
def render_set {V C Img : Type} (loadCam : V → ℚ → ℚ → C)
    (renderFn : C → Img) (timeFn : C → ℚ)
    (views : List V) (vdef : V) (pitch height : ℚ) : RenderOutput Img :=
  let cams := sweepHeights.map fun (h : ℤ) => loadCam (views.getD 481 vdef) pitch ((h : ℚ) / 100)
  let durations := cams.map timeFn
  { frames := cams.map renderFn
    duration_list := durations
    avgFPS := (views.length : ℚ) / durations.sum
    minFPS := 1 / durations.foldl max 0
    printedHeight :=
      match sweepHeights.getLast? with
      | some h => (h : ℚ)
      | none => height }

/-! Helper lemmas about mask filtering. -/

theorem maskFilter_nil_right {α : Type _} (ms : List Bool) :
    maskFilter ms ([] : List α) = [] := by
  cases ms <;> rfl

theorem maskFilter_map_self {α : Type _} (f : α → Bool) (xs : List α) :
    maskFilter (xs.map f) xs = xs.filter f := by
  induction xs with
  | nil => rfl
  | cons a as ih =>
    simp only [List.map_cons, maskFilter, List.filter_cons]
    by_cases h : f a = true
    · simp [h, ih]
    · simp only [Bool.not_eq_true] at h
      simp [h, ih]

theorem maskFilter_all_false {α : Type _} (ms : List Bool) (xs : List α)
    (h : ∀ b ∈ ms, b = false) : maskFilter ms xs = [] := by
  induction ms generalizing xs with
  | nil => cases xs <;> rfl
  | cons b bs ih =>
    cases xs with
    | nil => rfl
    | cons a as =>
      have hb : b = false := h b (List.mem_cons_self b bs)
      simp only [maskFilter, hb, Bool.false_eq_true, if_false]
      exact ih as fun c hc => h c (List.mem_cons_of_mem b hc)

theorem zipWith_and_map {α : Type _} (f g : α → Bool) (xs : List α) :
    List.zipWith (fun a b => a && b) (xs.map f) (xs.map g) =
      xs.map fun a => f a && g a := by
  induction xs with
  | nil => rfl
  | cons a as ih => simp [ih]

theorem count_true_zero_iff (ms : List Bool) :
    ms.count true = 0 ↔ ∀ b ∈ ms, b = false := by
  rw [List.count_eq_zero]
  constructor
  · intro h b hb
    cases b with
    | false => rfl
    | true => exact absurd hb h
  · intro h hb
    exact absurd (h true hb) (by simp)

/-- C7: for every camera and every level, the fine filter `get_feats_ptwise`
returns exactly the positions and the features of those points whose
camera-space depth (third component after applying the world-view transform)
is strictly greater than 0.2 and whose Euclidean distance from the camera
center lies in `[near, far)`; all other points are discarded.  Here
`keepPred` is by definition the conjunction of the near-clip test
`0.2 < camZ` and the half-open band test `near ≤ dist < far`, and both
parallel arrays are filtered by that per-point mask. -/
theorem get_feats_ptwise_spec {F : Type} (g : BlockedGaussian F) (cam : Camera) :
    (get_feats_ptwise g cam).1 = g.xyz.filter (keepPred g cam) ∧
      (get_feats_ptwise g cam).2 = maskFilter (g.xyz.map (keepPred g cam)) g.feats := by
  unfold get_feats_ptwise
  by_cases h1 : (g.xyz.map (depthPass cam)).count true = 0
  · have hall : ∀ p ∈ g.xyz, depthPass cam p = false := by
      intro p hp
      have := (count_true_zero_iff _).mp h1
      exact this _ (List.mem_map_of_mem _ hp)
    have hkeep : ∀ p ∈ g.xyz, keepPred g cam p = false := by
      intro p hp
      simp [keepPred, hall p hp]
    constructor
    · simp only [h1, if_true]
      symm
      exact List.filter_eq_nil_iff.mpr fun p hp => by simp [hkeep p hp]
    · simp only [h1, if_true]
      symm
      refine maskFilter_all_false _ _ ?_
      intro b hb
      obtain ⟨p, hp, rfl⟩ := List.mem_map.mp hb
      exact hkeep p hp
  · simp only [h1, if_false]
    rw [zipWith_and_map]
    have hmask : (g.xyz.map fun a => depthPass cam a && rangePass g cam a) =
        g.xyz.map (keepPred g cam) := rfl
    rw [hmask]
    by_cases h2 : 0 < (g.xyz.map (keepPred g cam)).count true
    · simp only [h2, if_true]
      exact ⟨maskFilter_map_self _ _, trivial⟩
    · simp only [h2, if_false]
      have hz : (g.xyz.map (keepPred g cam)).count true = 0 := by omega
      have hall : ∀ p ∈ g.xyz, keepPred g cam p = false := by
        intro p hp
        exact (count_true_zero_iff _).mp hz _ (List.mem_map_of_mem _ hp)
      constructor
      · symm
        exact List.filter_eq_nil_iff.mpr fun p hp => by simp [hall p hp]
      · symm
        refine maskFilter_all_false _ _ ?_
        intro b hb
        obtain ⟨p, hp, rfl⟩ := List.mem_map.mp hb
        exact hall p hp

/-- C8: for every camera for which every point of a level fails the
near-clip test (no point has camera-space depth above 0.2), the fine filter
`get_feats_ptwise` returns empty position and feature tensors; in the
embedding the function is total, so no error is raised. -/
theorem get_feats_ptwise_empty_on_clip {F : Type} (g : BlockedGaussian F)
    (cam : Camera) (h : ∀ p ∈ g.xyz, ¬ ((0.2 : ℚ) < camZ cam p)) :
    get_feats_ptwise g cam = ([], []) := by
  unfold get_feats_ptwise
  have h1 : (g.xyz.map (depthPass cam)).count true = 0 := by
    refine (count_true_zero_iff _).mpr ?_
    intro b hb
    obtain ⟨p, hp, rfl⟩ := List.mem_map.mp hb
    simpa [depthPass] using h p hp
  simp [h1]

/-- Witness for C8: a single point at the origin seen through the identity
world-view transform has camera-space depth 0, which fails the near-clip
test, so the filter returns empty tensors. -/
theorem get_feats_ptwise_empty_on_clip_w :
    get_feats_ptwise
      ({ xyz := [⟨0, 0, 0⟩], feats := [(0 : ℚ)], range := (0, 1000000) } :
        BlockedGaussian ℚ)
      ⟨⟨0, 0, 0⟩, ⟨⟨1, 0, 0, 0⟩, ⟨0, 1, 0, 0⟩, ⟨0, 0, 1, 0⟩, ⟨0, 0, 0, 1⟩⟩⟩ =
      ([], []) := by
  apply get_feats_ptwise_empty_on_clip
  intro p hp
  rw [List.mem_singleton] at hp
  subst hp
  norm_num [camZ, vecMat, homo]

/-- C4: distance-range membership in the fine filter is decided by exact
half-open comparisons (`distance ≥ near` and `distance < far`): a point at
distance exactly the shared threshold is kept by the level whose range
starts there (when it passes the near clip and the range is non-degenerate)
and never by the level ending there, and for two adjacent levels sharing a
threshold no point passes both levels' fine-filter predicates for the same
camera. -/
theorem lod_boundary_halfopen {F : Type} (gLo gHi : BlockedGaussian F)
    (cam : Camera) (p : P3)
    (hshare : gLo.range.2 = gHi.range.1)
    (hd : dist cam.camera_center p = (gHi.range.1 : ℝ))
    (hz : (0.2 : ℚ) < camZ cam p)
    (hlt : gHi.range.1 < gHi.range.2) :
    keepPred gHi cam p = true ∧ keepPred gLo cam p = false ∧
      ∀ q : P3, ¬ (keepPred gLo cam q = true ∧ keepPred gHi cam q = true) := by
  refine ⟨?_, ?_, ?_⟩
  · simp only [keepPred, depthPass, rangePass, Bool.and_eq_true, decide_eq_true_eq]
    refine ⟨hz, ?_, ?_⟩
    · rw [hd]
    · rw [hd]
      exact_mod_cast hlt
  · rw [Bool.eq_false_iff]
    intro hkeep
    simp only [keepPred, depthPass, rangePass, Bool.and_eq_true, decide_eq_true_eq] at hkeep
    have hfar : dist cam.camera_center p < (gLo.range.2 : ℝ) := hkeep.2.2
    rw [hd, hshare] at hfar
    exact lt_irrefl _ hfar
  · intro q hq
    obtain ⟨h1, h2⟩ := hq
    simp only [keepPred, depthPass, rangePass, Bool.and_eq_true, decide_eq_true_eq] at h1 h2
    have ha : dist cam.camera_center q < (gLo.range.2 : ℝ) := h1.2.2
    have hb : (gHi.range.1 : ℝ) ≤ dist cam.camera_center q := h2.2.1
    rw [hshare] at ha
    exact absurd hb (not_le.mpr ha)

/-- Witness for C4: levels with ranges `[0, 5)` and `[5, 6)` and a point at
depth 5 on the camera axis, hence at distance exactly 5 from the origin
camera: the point is kept by `[5, 6)`, rejected by `[0, 5)`, and no point
is kept by both levels. -/
theorem lod_boundary_halfopen_w :
    keepPred ({ xyz := [], feats := [], range := (5, 6) } : BlockedGaussian ℚ)
        ⟨⟨0, 0, 0⟩, ⟨⟨1, 0, 0, 0⟩, ⟨0, 1, 0, 0⟩, ⟨0, 0, 1, 0⟩, ⟨0, 0, 0, 1⟩⟩⟩
        ⟨0, 0, 5⟩ = true ∧
      keepPred ({ xyz := [], feats := [], range := (0, 5) } : BlockedGaussian ℚ)
        ⟨⟨0, 0, 0⟩, ⟨⟨1, 0, 0, 0⟩, ⟨0, 1, 0, 0⟩, ⟨0, 0, 1, 0⟩, ⟨0, 0, 0, 1⟩⟩⟩
        ⟨0, 0, 5⟩ = false ∧
      ∀ q : P3,
        ¬ (keepPred ({ xyz := [], feats := [], range := (0, 5) } : BlockedGaussian ℚ)
            ⟨⟨0, 0, 0⟩, ⟨⟨1, 0, 0, 0⟩, ⟨0, 1, 0, 0⟩, ⟨0, 0, 1, 0⟩, ⟨0, 0, 0, 1⟩⟩⟩ q = true ∧
          keepPred ({ xyz := [], feats := [], range := (5, 6) } : BlockedGaussian ℚ)
            ⟨⟨0, 0, 0⟩, ⟨⟨1, 0, 0, 0⟩, ⟨0, 1, 0, 0⟩, ⟨0, 0, 1, 0⟩, ⟨0, 0, 0, 1⟩⟩⟩ q = true) := by
  apply lod_boundary_halfopen
  · rfl
  · show Real.sqrt ((sqDist ⟨0, 0, 0⟩ ⟨0, 0, 5⟩ : ℚ) : ℝ) = ((5 : ℚ) : ℝ)
    have h25 : (sqDist ⟨0, 0, 0⟩ ⟨0, 0, 5⟩ : ℚ) = 25 := by
      norm_num [sqDist]
    rw [h25]
    push_cast
    rw [show (25 : ℝ) = 5 ^ 2 by norm_num, Real.sqrt_sq (by norm_num : (0 : ℝ) ≤ 5)]
  · norm_num [camZ, vecMat, homo]
  · norm_num

/-! Helper lemmas for the robust per-cell box. -/

theorem foldl_min_le_init (l : List ℚ) (b : ℚ) : l.foldl min b ≤ b := by
  induction l generalizing b with
  | nil => exact le_refl b
  | cons a as ih => exact le_trans (ih (min b a)) (min_le_left b a)

theorem foldl_min_le_mem (l : List ℚ) (b a : ℚ) (h : a ∈ l) : l.foldl min b ≤ a := by
  induction l generalizing b with
  | nil => exact absurd h (List.not_mem_nil a)
  | cons c cs ih =>
    rcases List.mem_cons.mp h with rfl | hmem
    · exact le_trans (foldl_min_le_init cs (min b a)) (min_le_right b a)
    · exact ih (min b c) hmem

theorem init_le_foldl_max (l : List ℚ) (b : ℚ) : b ≤ l.foldl max b := by
  induction l generalizing b with
  | nil => exact le_refl b
  | cons a as ih => exact le_trans (le_max_left b a) (ih (max b a))

theorem mem_le_foldl_max (l : List ℚ) (b a : ℚ) (h : a ∈ l) : a ≤ l.foldl max b := by
  induction l generalizing b with
  | nil => exact absurd h (List.not_mem_nil a)
  | cons c cs ih =>
    rcases List.mem_cons.mp h with rfl | hmem
    · exact le_trans (le_max_right b a) (init_le_foldl_max cs (max b a))
    · exact ih (max b c) hmem

theorem listMin_le_mem (xs : List ℚ) (a : ℚ) (h : a ∈ xs) : listMin xs ≤ a := by
  cases xs with
  | nil => exact absurd h (List.not_mem_nil a)
  | cons c cs =>
    rcases List.mem_cons.mp h with rfl | hmem
    · exact foldl_min_le_init cs a
    · exact foldl_min_le_mem cs c a hmem

theorem mem_le_listMax (xs : List ℚ) (a : ℚ) (h : a ∈ xs) : a ≤ listMax xs := by
  cases xs with
  | nil => exact absurd h (List.not_mem_nil a)
  | cons c cs =>
    rcases List.mem_cons.mp h with rfl | hmem
    · exact init_le_foldl_max cs a
    · exact mem_le_foldl_max cs c a hmem

theorem medianLower_mem (xs : List ℚ) (h : xs ≠ []) : medianLower xs ∈ xs := by
  unfold medianLower
  have hlen : (List.insertionSort (· ≤ ·) xs).length = xs.length :=
    List.length_insertionSort (· ≤ ·) xs
  have hpos : 0 < xs.length := List.length_pos.mpr h
  have hidx : (xs.length - 1) / 2 < (List.insertionSort (· ≤ ·) xs).length := by
    rw [hlen]
    omega
  rw [List.getD_eq_getElem _ _ hidx]
  exact (List.mem_insertionSort (· ≤ ·)).mp (List.getElem_mem hidx)

theorem madLower_nonneg (xs : List ℚ) (h : xs ≠ []) : 0 ≤ madLower xs := by
  unfold madLower
  have hmap : xs.map (fun v => |v - medianLower xs|) ≠ [] := by
    simpa [List.map_eq_nil_iff] using h
  obtain ⟨v, _, hv⟩ := List.mem_map.mp (medianLower_mem _ hmap)
  rw [← hv]
  exact abs_nonneg _

/-- Per-axis containment of the robust interval: on each axis the computed
edge pair stays inside the true extent of the member coordinates and
brackets the (lower) median. -/
theorem robust_axis (xs : List ℚ) (h : xs ≠ []) :
    listMin xs ≤ robustLo xs ∧ robustHi xs ≤ listMax xs ∧
      robustLo xs ≤ medianLower xs ∧ medianLower xs ≤ robustHi xs := by
  have hmem := medianLower_mem xs h
  have hmad := madLower_nonneg xs h
  refine ⟨le_max_right _ _, min_le_right _ _, ?_, ?_⟩
  · refine max_le ?_ (listMin_le_mem xs _ hmem)
    have : 0 ≤ 4 * madLower xs := by linarith
    linarith
  · refine le_min ?_ (mem_le_listMax xs _ hmem)
    have : 0 ≤ 4 * madLower xs := by linarith
    linarith

/-- C2 (counterexample): the claim that the robust box of `cell_divider`
contains the true per-axis min of its member points fails.  For the cell
with members `(0,0,0)` and four copies of `(10,0,0)`, the x-median is 10 and
the MAD is 0, so `xyz_min.x = max(10 - 4·0, 0) = 10`, which excludes the
member point at `x = 0`. -/
theorem cell_divider_box_excludes_member :
    (⟨0, 0, 0⟩ : P3) ∈
        ([⟨0, 0, 0⟩, ⟨10, 0, 0⟩, ⟨10, 0, 0⟩, ⟨10, 0, 0⟩, ⟨10, 0, 0⟩] : List P3) ∧
      ¬ ((cellBox [⟨0, 0, 0⟩, ⟨10, 0, 0⟩, ⟨10, 0, 0⟩, ⟨10, 0, 0⟩, ⟨10, 0, 0⟩]).1.x ≤
          (⟨0, 0, 0⟩ : P3).x) := by
  have hmed : medianLower [0, 10, 10, 10, 10] = 10 := by
    norm_num [medianLower, List.insertionSort, List.orderedInsert]
  have habs : ([0, 10, 10, 10, 10] : List ℚ).map
      (fun v => |v - medianLower [0, 10, 10, 10, 10]|) = [10, 0, 0, 0, 0] := by
    rw [hmed]
    norm_num
  have hmad : madLower [0, 10, 10, 10, 10] = 0 := by
    rw [madLower, habs]
    norm_num [medianLower, List.insertionSort, List.orderedInsert]
  have hlo : (cellBox [⟨0, 0, 0⟩, ⟨10, 0, 0⟩, ⟨10, 0, 0⟩, ⟨10, 0, 0⟩, ⟨10, 0, 0⟩]).1.x
      = robustLo [0, 10, 10, 10, 10] := rfl
  constructor
  · simp
  · rw [hlo, robustLo, hmed, hmad]
    norm_num [listMin, min_def, max_def]

/-- C2 (amended): for every non-empty cell, the robust box of `cell_divider`
is contained in the true per-axis extent of the cell's member points — the
intersection step guarantees the box never extends beyond points actually
present — and on each axis its lower edge is at most its upper edge.
(The box may exclude outlier member points; the original containment
direction is refuted by `cell_divider_box_excludes_member`.) -/
theorem cell_divider_box_within_extent (pts : List P3) (h : pts ≠ []) :
    (listMin (pts.map P3.x) ≤ (cellBox pts).1.x ∧
        (cellBox pts).2.x ≤ listMax (pts.map P3.x) ∧
        (cellBox pts).1.x ≤ (cellBox pts).2.x) ∧
      (listMin (pts.map P3.y) ≤ (cellBox pts).1.y ∧
        (cellBox pts).2.y ≤ listMax (pts.map P3.y) ∧
        (cellBox pts).1.y ≤ (cellBox pts).2.y) ∧
      (listMin (pts.map P3.z) ≤ (cellBox pts).1.z ∧
        (cellBox pts).2.z ≤ listMax (pts.map P3.z) ∧
        (cellBox pts).1.z ≤ (cellBox pts).2.z) := by
  have hx : pts.map P3.x ≠ [] := by simpa [List.map_eq_nil_iff] using h
  have hy : pts.map P3.y ≠ [] := by simpa [List.map_eq_nil_iff] using h
  have hz : pts.map P3.z ≠ [] := by simpa [List.map_eq_nil_iff] using h
  obtain ⟨hx1, hx2, hx3, hx4⟩ := robust_axis (pts.map P3.x) hx
  obtain ⟨hy1, hy2, hy3, hy4⟩ := robust_axis (pts.map P3.y) hy
  obtain ⟨hz1, hz2, hz3, hz4⟩ := robust_axis (pts.map P3.z) hz
  exact ⟨⟨hx1, hx2, le_trans hx3 hx4⟩, ⟨hy1, hy2, le_trans hy3 hy4⟩,
    ⟨hz1, hz2, le_trans hz3 hz4⟩⟩

/-- Witness for the amended C2: the singleton cell `{(1,2,3)}` satisfies the
per-axis containment of the robust box in the true extent. -/
theorem cell_divider_box_within_extent_w :
    (listMin (([⟨1, 2, 3⟩] : List P3).map P3.x) ≤ (cellBox [⟨1, 2, 3⟩]).1.x ∧
        (cellBox [⟨1, 2, 3⟩]).2.x ≤ listMax (([⟨1, 2, 3⟩] : List P3).map P3.x) ∧
        (cellBox [⟨1, 2, 3⟩]).1.x ≤ (cellBox [⟨1, 2, 3⟩]).2.x) ∧
      (listMin (([⟨1, 2, 3⟩] : List P3).map P3.y) ≤ (cellBox [⟨1, 2, 3⟩]).1.y ∧
        (cellBox [⟨1, 2, 3⟩]).2.y ≤ listMax (([⟨1, 2, 3⟩] : List P3).map P3.y) ∧
        (cellBox [⟨1, 2, 3⟩]).1.y ≤ (cellBox [⟨1, 2, 3⟩]).2.y) ∧
      (listMin (([⟨1, 2, 3⟩] : List P3).map P3.z) ≤ (cellBox [⟨1, 2, 3⟩]).1.z ∧
        (cellBox [⟨1, 2, 3⟩]).2.z ≤ listMax (([⟨1, 2, 3⟩] : List P3).map P3.z) ∧
        (cellBox [⟨1, 2, 3⟩]).1.z ≤ (cellBox [⟨1, 2, 3⟩]).2.z) :=
  cell_divider_box_within_extent [⟨1, 2, 3⟩] (by simp)

/-! Helper lemmas about threshold chains and their adjacent-pair ranges. -/

theorem coveredBy_eq_true_iff (rs : List (ℚ × ℚ)) (d : ℚ) :
    coveredBy rs d = true ↔ ∃ r ∈ rs, r.1 ≤ d ∧ d < r.2 := by
  simp [coveredBy]

theorem chainPairs_length (l : List ℚ) : (chainPairs l).length = l.length - 1 := by
  cases l with
  | nil => rfl
  | cons a as =>
    simp only [chainPairs, List.length_zip, List.tail_cons, List.length_cons]
    omega

theorem chain_head_le (a : ℚ) (l : List ℚ)
    (h : List.Chain' (· ≤ ·) (a :: l)) : ∀ x ∈ a :: l, a ≤ x := by
  induction l generalizing a with
  | nil =>
    intro x hx
    rw [List.mem_singleton] at hx
    subst hx
    exact le_refl x
  | cons b l' ih =>
    intro x hx
    rw [List.chain'_cons] at h
    rcases List.mem_cons.mp hx with rfl | hmem
    · exact le_refl x
    · exact le_trans h.1 (ih b h.2 x hmem)

theorem chainPairs_pairwise (l : List ℚ) (h : List.Chain' (· ≤ ·) l) :
    (chainPairs l).Pairwise (fun r s => r.2 ≤ s.1) := by
  induction l with
  | nil => exact List.Pairwise.nil
  | cons a rest ih =>
    cases rest with
    | nil => exact List.Pairwise.nil
    | cons b rest' =>
      rw [List.chain'_cons] at h
      show ((a, b) :: chainPairs (b :: rest')).Pairwise fun r s => r.2 ≤ s.1
      refine List.Pairwise.cons ?_ (ih h.2)
      intro s hs
      obtain ⟨s1, s2⟩ := s
      exact chain_head_le b rest' h.2 s1 (List.of_mem_zip hs).1

theorem chainPairs_cover (l : List ℚ) :
    List.Chain' (· ≤ ·) l → ∀ d a b : ℚ, l.head? = some a → l.getLast? = some b →
      a ≤ d → d < b → coveredBy (chainPairs l) d = true := by
  induction l with
  | nil =>
    intro _ d a b ha
    simp at ha
  | cons x rest ih =>
    intro hch d a b ha hb hda hdb
    rw [List.head?_cons, Option.some_inj] at ha
    subst ha
    cases rest with
    | nil =>
      have hb' : x = b := by simpa using hb
      subst hb'
      exact absurd hdb (not_lt.mpr hda)
    | cons y rest' =>
      rw [List.chain'_cons] at hch
      by_cases hd : d < y
      · rw [coveredBy_eq_true_iff]
        refine ⟨(x, y), ?_, hda, hd⟩
        show (x, y) ∈ (x, y) :: chainPairs (y :: rest')
        exact List.mem_cons_self _ _
      · push_neg at hd
        have hb' : (y :: rest').getLast? = some b := by
          rw [← List.getLast?_cons_cons]
          exact hb
        have hcov := ih hch.2 d y b rfl hb' hd hdb
        rw [coveredBy_eq_true_iff] at hcov ⊢
        obtain ⟨r, hr, h1, h2⟩ := hcov
        refine ⟨r, ?_, h1, h2⟩
        show r ∈ (x, y) :: chainPairs (y :: rest')
        exact List.mem_cons_of_mem _ hr

theorem getLast?_cons_ne {α : Type _} (x : α) (xs : List α) (h : xs ≠ []) :
    (x :: xs).getLast? = xs.getLast? := by
  cases xs with
  | nil => exact absurd rfl h
  | cons y ys => exact List.getLast?_cons_cons

theorem chainPairs_getLast? (b : ℚ) (l : List ℚ) :
    ∀ a : ℚ, (chainPairs (a :: (l ++ [b]))).getLast?.map Prod.snd = some b := by
  induction l with
  | nil => intro a; rfl
  | cons c l' ih =>
    intro a
    have hne : chainPairs (c :: (l' ++ [b])) ≠ [] := by
      have := chainPairs_length (c :: (l' ++ [b]))
      intro hnil
      rw [hnil] at this
      simp at this
    have hstep : chainPairs (a :: ((c :: l') ++ [b])) =
        (a, c) :: chainPairs (c :: (l' ++ [b])) := rfl
    rw [hstep, getLast?_cons_ne _ _ hne]
    exact ih c

/-- C1 (counterexample): the synthesized level ranges do not extend to
`+∞` and their union does not cover `[0, +∞)`.  With the single threshold
list `[10]`, the last range's far bound is the finite sentinel `1e6`
(line 175 appends `1e6`, not infinity), and the distance `1e6 ≥ 0` lies in
no range at all. -/
theorem levelRanges_far_not_infinite :
    (levelRanges [10]).getLast?.map Prod.snd = some 1000000 ∧
      (0 : ℚ) ≤ 1000000 ∧ coveredBy (levelRanges [10]) 1000000 = false := by
  refine ⟨rfl, by norm_num, ?_⟩
  rw [Bool.eq_false_iff]
  intro h
  rw [coveredBy_eq_true_iff] at h
  obtain ⟨r, hr, h1, h2⟩ := h
  have hlist : levelRanges [10] = [(0, 10), (10, 1000000)] := rfl
  rw [hlist] at hr
  rcases List.mem_cons.mp hr with rfl | hr'
  · norm_num at h2
  · rcases List.mem_cons.mp hr' with rfl | h0
    · norm_num at h2
    · exact absurd h0 (List.not_mem_nil r)

/-- C1 (amended): for `k` thresholds strictly ascending within
`(0, 1e6)` and `k+1` levels, the synthesized per-level ranges are
contiguous (`range[i].far = range[i+1].near`), each non-degenerate
(`near < far`), start at `range[0].near = 0`, end at the finite sentinel
`range[last].far = 1e6`, and their union covers `[0, 1e6)` with no gap and
no overlap.  (Coverage of all of `[0, +∞)` with `range[last].far = +∞`
fails: see `levelRanges_far_not_infinite`.) -/
theorem levelRanges_spec (ts : List ℚ)
    (hasc : List.Chain' (· < ·) (synthThresholds ts)) :
    (levelRanges ts).length = ts.length + 1 ∧
      (∀ (i : ℕ) (h1 : i < (levelRanges ts).length)
          (h2 : i + 1 < (levelRanges ts).length),
          ((levelRanges ts).get ⟨i, h1⟩).2 = ((levelRanges ts).get ⟨i + 1, h2⟩).1) ∧
      (∀ (i : ℕ) (h1 : i < (levelRanges ts).length),
          ((levelRanges ts).get ⟨i, h1⟩).1 < ((levelRanges ts).get ⟨i, h1⟩).2) ∧
      (levelRanges ts).head?.map Prod.fst = some 0 ∧
      (levelRanges ts).getLast?.map Prod.snd = some 1000000 ∧
      (∀ d : ℚ, 0 ≤ d → d < 1000000 → coveredBy (levelRanges ts) d = true) ∧
      (levelRanges ts).Pairwise
        (fun r s => ∀ d : ℚ, ¬ (r.1 ≤ d ∧ d < r.2 ∧ s.1 ≤ d ∧ d < s.2)) := by
  have hle : List.Chain' (· ≤ ·) (synthThresholds ts) :=
    List.Chain'.imp (fun a b => le_of_lt) hasc
  have hlen : (levelRanges ts).length = ts.length + 1 := by
    rw [levelRanges, chainPairs_length]
    simp [synthThresholds]
  have hslen : (synthThresholds ts).length = ts.length + 2 := by
    simp [synthThresholds]
  refine ⟨hlen, ?_, ?_, ?_, ?_, ?_, ?_⟩
  · intro i h1 h2
    have hi1 : i < (synthThresholds ts).length := by omega
    have hi2 : i + 1 < (synthThresholds ts).length := by
      rw [hslen]; rw [hlen] at h2; omega
    have hti : i < (synthThresholds ts).tail.length := by
      simp only [List.length_tail]; omega
    have hti1 : i + 1 < (synthThresholds ts).tail.length := by
      simp only [List.length_tail]
      rw [hslen]; rw [hlen] at h2; omega
    simp only [levelRanges, chainPairs, List.get_eq_getElem, List.getElem_zip,
      List.getElem_tail]
  · intro i h1
    have hi2 : i + 1 < (synthThresholds ts).length := by
      rw [hslen]; rw [hlen] at h1; omega
    have hrel := List.chain'_iff_get.mp hasc i (by omega)
    have hti : i < (synthThresholds ts).tail.length := by
      simp only [List.length_tail]; omega
    simpa only [levelRanges, chainPairs, List.get_eq_getElem, List.getElem_zip,
      List.getElem_tail] using hrel
  · cases ts with
    | nil => rfl
    | cons t ts' => rfl
  · exact chainPairs_getLast? 1000000 ts 0
  · intro d hd0 hd1
    refine chainPairs_cover (synthThresholds ts) hle d 0 1000000 rfl ?_ hd0 hd1
    show (0 :: (ts ++ [1000000]) : List ℚ).getLast? = some 1000000
    rw [show (0 :: (ts ++ [1000000]) : List ℚ) = (0 :: ts) ++ [1000000] from rfl]
    exact List.getLast?_concat _
  · refine List.Pairwise.imp ?_ (chainPairs_pairwise (synthThresholds ts) hle)
    intro r s hrs d hcontra
    obtain ⟨h1, h2, h3, h4⟩ := hcontra
    linarith

/-- Witness for the amended C1: a single threshold `[10]` gives the two
ranges `[0, 10)` and `[10, 1e6)`, with all the listed properties. -/
theorem levelRanges_spec_w :
    (levelRanges [10]).length = 2 ∧
      (∀ (i : ℕ) (h1 : i < (levelRanges [10]).length)
          (h2 : i + 1 < (levelRanges [10]).length),
          ((levelRanges [10]).get ⟨i, h1⟩).2 = ((levelRanges [10]).get ⟨i + 1, h2⟩).1) ∧
      (∀ (i : ℕ) (h1 : i < (levelRanges [10]).length),
          ((levelRanges [10]).get ⟨i, h1⟩).1 < ((levelRanges [10]).get ⟨i, h1⟩).2) ∧
      (levelRanges [10]).head?.map Prod.fst = some 0 ∧
      (levelRanges [10]).getLast?.map Prod.snd = some 1000000 ∧
      (∀ d : ℚ, 0 ≤ d → d < 1000000 → coveredBy (levelRanges [10]) d = true) ∧
      (levelRanges [10]).Pairwise
        (fun r s => ∀ d : ℚ, ¬ (r.1 ≤ d ∧ d < r.2 ∧ s.1 ≤ d ∧ d < s.2)) :=
  levelRanges_spec [10]
    (by
      simp only [synthThresholds, List.nil_append, List.cons_append,
        List.chain'_cons, List.chain'_singleton, and_true]
      norm_num)

/-- C5: if the number of distance thresholds does not equal the number of
LOD configs minus one, the driver `render_sets` raises the assertion error
of line 174 immediately: the event trace is empty, so no scene variant is
loaded and no rendering work begins, for every flag combination. -/
theorem render_sets_assert_first (numConfigs numThresholds : ℕ)
    (h : (numConfigs : ℤ) - 1 ≠ (numThresholds : ℤ))
    (customTest skipTrain skipTest : Bool) :
    render_sets_lodv2 numConfigs numThresholds customTest skipTrain skipTest =
      ([], Except.error "AssertionError") := by
  unfold render_sets_lodv2
  rw [if_pos h]

/-- Witness for C5: 3 configs with 5 thresholds fail the assertion with an
empty event trace. -/
theorem render_sets_assert_first_w :
    render_sets_lodv2 3 5 false false false = ([], Except.error "AssertionError") :=
  render_sets_assert_first 3 5 (by decide) false false false

/-- C9: when no custom test path is given, the count assertion passes, and
at least one of the train/test splits is not skipped, `render_sets` of
`render_video_lodv2.py` reads the local `views`, which was assigned only
inside the custom-test branch; the run therefore ends in the undefined-name
error and the trace contains no render-split event at all. -/
theorem render_sets_unbound_views (numConfigs numThresholds : ℕ)
    (skipTrain skipTest : Bool)
    (hok : (numConfigs : ℤ) - 1 = (numThresholds : ℤ))
    (hskip : skipTrain = false ∨ skipTest = false) :
    (render_sets_lodv2 numConfigs numThresholds false skipTrain skipTest).2 =
        Except.error "UnboundLocalError: views" ∧
      ∀ e ∈ (render_sets_lodv2 numConfigs numThresholds false skipTrain skipTest).1,
        ∀ s : String, e ≠ DriverEvent.renderSplit s := by
  have hand : (skipTrain && skipTest) = false := by
    rcases hskip with h | h
    · rw [h, Bool.false_and]
    · rw [h, Bool.and_false]
  have hres : render_sets_lodv2 numConfigs numThresholds false skipTrain skipTest =
      ((List.range numConfigs).map DriverEvent.load,
        Except.error "UnboundLocalError: views") := by
    unfold render_sets_lodv2
    rw [if_neg (by simp [hok])]
    simp [hand]
  rw [hres]
  refine ⟨rfl, ?_⟩
  intro e he s
  obtain ⟨i, _, rfl⟩ := List.mem_map.mp he
  intro hcontra
  exact DriverEvent.noConfusion hcontra

/-- Witness for C9: two LOD configs, one threshold, neither split skipped:
the driver errors on the unbound `views` and renders nothing. -/
theorem render_sets_unbound_views_w :
    (render_sets_lodv2 2 1 false false false).2 =
        Except.error "UnboundLocalError: views" ∧
      ∀ e ∈ (render_sets_lodv2 2 1 false false false).1,
        ∀ s : String, e ≠ DriverEvent.renderSplit s :=
  render_sets_unbound_views 2 1 false false (by decide) (Or.inl rfl)

/-- C6: the camera sweep iterates heights over `range(500, 2525, 25)`,
producing exactly 81 poses whose heights (the raw values divided by 100)
are strictly increasing, starting from the raw height 500 and ending at
2500, with the same pitch and the same base-camera index 481 for every
pose; re-running with the same parameters yields the identical sequence. -/
theorem sweep_deterministic_81 (pitch : ℚ) :
    (sweepPoses pitch).length = 81 ∧
      (sweepPoses pitch).map SweepPose.height =
        sweepHeights.map (fun (h : ℤ) => (h : ℚ) / 100) ∧
      List.Chain' (· < ·) ((sweepPoses pitch).map SweepPose.height) ∧
      sweepHeights.head? = some 500 ∧
      sweepHeights.getLast? = some 2500 ∧
      (∀ p ∈ sweepPoses pitch, p.idx = 481 ∧ p.pitch = pitch) ∧
      sweepPoses pitch = sweepPoses pitch := by
  have hchainZ : List.Chain' (· < ·) sweepHeights := by
    refine List.Pairwise.chain' ?_
    rw [sweepHeights, pyRange]
    refine List.pairwise_map.mpr ?_
    refine List.Pairwise.imp ?_ (List.pairwise_lt_range _)
    intro a b hab
    omega
  have hmap : (sweepPoses pitch).map SweepPose.height =
      sweepHeights.map (fun (h : ℤ) => (h : ℚ) / 100) := by
    show (sweepHeights.map fun (h : ℤ) =>
        (⟨481, pitch, (h : ℚ) / 100⟩ : SweepPose)).map SweepPose.height =
      sweepHeights.map fun (h : ℤ) => (h : ℚ) / 100
    rw [List.map_map]
    rfl
  refine ⟨?_, hmap, ?_, by decide, by decide, ?_, rfl⟩
  · simp only [sweepPoses, List.length_map]
    decide
  · rw [hmap, List.chain'_map (fun (h : ℤ) => (h : ℚ) / 100)]
    refine List.Chain'.imp ?_ hchainZ
    intro a b hab
    have hq : (a : ℚ) < (b : ℚ) := by exact_mod_cast hab
    exact (div_lt_div_iff_of_pos_right (by norm_num)).mpr hq
  · intro p hp
    obtain ⟨h, _, rfl⟩ := List.mem_map.mp hp
    exact ⟨rfl, rfl⟩

/-- C10: the `height` argument of `render_set` has no effect on the output:
the sweep loop variable shadows it before any use, so two invocations
differing only in the height argument produce identical frame sequences,
identical duration lists, identical FPS reports, and even the identical
printed final height (the last swept value, 2500). -/
theorem render_set_height_irrelevant {V C Img : Type} (loadCam : V → ℚ → ℚ → C)
    (renderFn : C → Img) (timeFn : C → ℚ) (views : List V) (vdef : V)
    (pitch hgt1 hgt2 : ℚ) :
    render_set loadCam renderFn timeFn views vdef pitch hgt1 =
      render_set loadCam renderFn timeFn views vdef pitch hgt2 := by
  have hlast : sweepHeights.getLast? = some 2500 := by decide
  simp only [render_set, hlast]

theorem sum_map_one {α : Type _} (l : List α) :
    (l.map fun _ => (1 : ℚ)).sum = (l.length : ℚ) := by
  induction l with
  | nil => simp
  | cons a as ih =>
    rw [List.map_cons, List.sum_cons, ih, List.length_cons]
    push_cast
    ring

theorem foldl_max_one {α : Type _} (l : List α) :
    ((l.map fun _ => (1 : ℚ)).foldl max 1) = 1 := by
  induction l with
  | nil => rfl
  | cons a as ih => simpa [max_self] using ih

theorem foldl_max_zero_one {α : Type _} (l : List α) (h : l ≠ []) :
    ((l.map fun _ => (1 : ℚ)).foldl max 0) = 1 := by
  cases l with
  | nil => exact absurd rfl h
  | cons a as =>
    show ((a :: as).map fun _ => (1 : ℚ)).foldl max 0 = 1
    rw [List.map_cons, List.foldl_cons, max_eq_right (by norm_num : (0 : ℚ) ≤ 1)]
    exact foldl_max_one as

/-- C3 (code at the failing input): over one sweep the code accumulates
exactly 81 frame durations, yet line 170 reports
`Average FPS = len(views)/avg_render_time`, dividing by the size of the
whole camera list instead of the frame count `N`.  With the minimal camera
list of 482 views (index 481 must exist) and every frame taking 1 second,
the code reports `482/81` while `N / Σ d_i = 81/81 = 1`; the min-FPS report
`1/max(d_i)` does match the claim. -/
theorem render_set_avgFPS_uses_len_views :
    (render_set (fun _ _ h => h) (fun c => c) (fun _ => (1 : ℚ))
          (List.replicate 482 (0 : ℚ)) 0 0 0).duration_list.length = 81 ∧
      (render_set (fun _ _ h => h) (fun c => c) (fun _ => (1 : ℚ))
          (List.replicate 482 (0 : ℚ)) 0 0 0).duration_list.sum = 81 ∧
      (render_set (fun _ _ h => h) (fun c => c) (fun _ => (1 : ℚ))
          (List.replicate 482 (0 : ℚ)) 0 0 0).minFPS = 1 / 1 ∧
      (render_set (fun _ _ h => h) (fun c => c) (fun _ => (1 : ℚ))
          (List.replicate 482 (0 : ℚ)) 0 0 0).avgFPS = 482 / 81 ∧
      (render_set (fun _ _ h => h) (fun c => c) (fun _ => (1 : ℚ))
          (List.replicate 482 (0 : ℚ)) 0 0 0).avgFPS ≠
        ((render_set (fun _ _ h => h) (fun c => c) (fun _ => (1 : ℚ))
            (List.replicate 482 (0 : ℚ)) 0 0 0).duration_list.length : ℚ) /
          (render_set (fun _ _ h => h) (fun c => c) (fun _ => (1 : ℚ))
              (List.replicate 482 (0 : ℚ)) 0 0 0).duration_list.sum := by
  have hlen81 : sweepHeights.length = 81 := by decide
  have hq : ((sweepHeights.map fun (h : ℤ) => (h : ℚ) / 100).map fun _ => (1 : ℚ)) =
      sweepHeights.map fun _ => (1 : ℚ) := by
    rw [List.map_map]
    rfl
  have hne : sweepHeights ≠ [] := by decide
  have hdl : (render_set (fun _ _ h => h) (fun c => c) (fun _ => (1 : ℚ))
      (List.replicate 482 (0 : ℚ)) 0 0 0).duration_list =
      ((sweepHeights.map fun (h : ℤ) => (h : ℚ) / 100).map fun _ => (1 : ℚ)) := rfl
  have hlen : (render_set (fun _ _ h => h) (fun c => c) (fun _ => (1 : ℚ))
      (List.replicate 482 (0 : ℚ)) 0 0 0).duration_list.length = 81 := by
    rw [hdl, List.length_map, List.length_map, hlen81]
  have hsum : (render_set (fun _ _ h => h) (fun c => c) (fun _ => (1 : ℚ))
      (List.replicate 482 (0 : ℚ)) 0 0 0).duration_list.sum = 81 := by
    rw [hdl, hq, sum_map_one, hlen81]
    norm_num
  have h482 : (render_set (fun _ _ h => h) (fun c => c) (fun _ => (1 : ℚ))
      (List.replicate 482 (0 : ℚ)) 0 0 0).avgFPS = 482 / 81 := by
    show ((List.replicate 482 (0 : ℚ)).length : ℚ) /
        ((sweepHeights.map fun (h : ℤ) => (h : ℚ) / 100).map fun _ => (1 : ℚ)).sum = 482 / 81
    rw [hq, sum_map_one, hlen81, List.length_replicate]
    norm_num
  refine ⟨hlen, hsum, ?_, h482, ?_⟩
  · show (1 : ℚ) /
        ((sweepHeights.map fun (h : ℤ) => (h : ℚ) / 100).map fun _ => (1 : ℚ)).foldl max 0 =
      1 / 1
    rw [hq, foldl_max_zero_one _ hne]
  · intro hcontra
    rw [hlen, hsum, h482] at hcontra
    norm_num at hcontra

end CityGS
